import Mathlib

/-!
Verification of the checklist extraction and tabular-layout core of the
pr-checklist-to-sheets GitHub action.  Document bodies, markers, labels and
URLs are modelled as `List Char`; the TypeScript functions of the repository
are translated into executable Lean definitions, and the specification's
claims are proved about those definitions.
-/

namespace PrChecklistToSheets

/-- JS `\s` whitespace test, restricted to the ASCII whitespace characters
(space, tab, newline, carriage return, vertical tab, form feed); the action
only feeds these through `trim` and the `\s` regex classes. -/
def isWsChar (c : Char) : Bool :=
  c = ' ' || c = '\t' || c = '\n' || c = '\r' || c = Char.ofNat 11 || c = Char.ofNat 12

/-- JS `String.prototype.trim` on a list of characters. -/
def trim (s : List Char) : List Char :=
  ((s.dropWhile isWsChar).reverse.dropWhile isWsChar).reverse

/-- JS `String.prototype.split` at newline characters. -/
def splitOnNewline : List Char → List (List Char)
  | [] => [[]]
  | c :: rest =>
    match splitOnNewline rest with
    | [] => [[]]
    | cur :: others => if c = '\n' then [] :: cur :: others else (c :: cur) :: others

/-- `pat` occurs in `l` starting at position `k`. -/
def OccursAt (pat l : List Char) (k : Nat) : Prop :=
  pat <+: l.drop k

instance (pat l : List Char) (k : Nat) : Decidable (OccursAt pat l k) :=
  decidable_of_iff (pat.isPrefixOf (l.drop k) = true) (by simp [OccursAt])

/-- Leftmost-occurrence search: index (offset by `acc`) of the first position
of `body` at which `pat` starts.  This models the JS leftmost regex match of
an escaped (hence literal) pattern, as well as `String.prototype.includes`. -/
def findSubstrAux (pat : List Char) : List Char → Nat → Option Nat
  | [], acc => if pat.isPrefixOf [] then some acc else none
  | c :: rest, acc =>
    if pat.isPrefixOf (c :: rest) then some acc else findSubstrAux pat rest (acc + 1)

/-- First occurrence of `pat` in `body` at position `start` or later. -/
def findSubstrFrom (body pat : List Char) (start : Nat) : Option Nat :=
  match findSubstrAux pat (body.drop start) 0 with
  | none => none
  | some k => some (start + k)

/-- JS `String.prototype.includes`. -/
def containsSubstr (body pat : List Char) : Bool :=
  (findSubstrFrom body pat 0).isSome

namespace Checklist

/-- A parsed checklist entry (`ChecklistItem` of src/checklist.ts). -/
structure ChecklistItem where
  note : List Char
  prUrl : List Char
  author : List Char
deriving DecidableEq

/-- One (already trimmed) line matched against the plain-item grammar
`-`, one or more whitespace characters, then a non-empty capture to the end
of the line, followed by the `.trim()` the source applies to the captured
note.  The whitespace run backtracks so that the capture keeps at least one
character; composed with the final trim this yields `trim` of everything
after the maximal whitespace run. -/
def parseSimpleLine : List Char → Option (List Char)
  | '-' :: c :: rest =>
    if isWsChar c && !rest.isEmpty then some (trim ((c :: rest).dropWhile isWsChar))
    else none
  | _ => none

/-- src/checklist.ts `parseChecklistBlock`: extract the span between the
first start marker and the next end marker, split it into trimmed non-blank
lines, and parse each line with the plain-item grammar, skipping (not
aborting on) unparsable lines.

Regex modelling notes: the source escapes every regex metacharacter in both
markers, so matching is literal substring search.  The leftmost match of
start marker, any characters (non-greedy), end marker starts at the first
occurrence of the start marker and ends at the first occurrence of the end
marker at or after the end of the start marker (a later start marker cannot
have a partner end marker unless the first one has the same partner).  The
whitespace run the source's pattern places after the start marker only
moves leading whitespace out of the captured group; since every line of the
capture is trimmed before parsing, folding that whitespace into the span
leaves the resulting items unchanged (and the span itself is exact whenever
the end marker does not begin with a whitespace character, as the default
markers do not). -/
def parseChecklistBlock (body startMarker endMarker prUrl author : List Char) :
    List ChecklistItem :=
  match findSubstrFrom body startMarker 0 with
  | none => []
  | some i =>
    match findSubstrFrom body endMarker (i + startMarker.length) with
    | none => []
    | some j =>
      let span := (body.drop (i + startMarker.length)).take (j - (i + startMarker.length))
      let lines := ((splitOnNewline span).map trim).filter (fun l => !l.isEmpty)
      lines.filterMap (fun line =>
        (parseSimpleLine line).map (fun note => ⟨note, prUrl, author⟩))

/-- The loop of src/checklist.ts `columnToLetter`: while `temp >= 0`,
prepend the character with code `temp % 26 + 65` and continue with
`Math.floor(temp / 26) - 1` (Lean's `Int` division is floor division,
matching `Math.floor`). -/
def columnToLetterGo (temp : Int) (letter : List Char) : List Char :=
  if h : 0 ≤ temp then
    columnToLetterGo (temp / 26 - 1) (Char.ofNat ((temp % 26).toNat + 65) :: letter)
  else letter
termination_by (temp + 1).toNat
decreasing_by omega

/-- src/checklist.ts `columnToLetter` (0 ↦ "A", 25 ↦ "Z", 26 ↦ "AA", …). -/
def columnToLetter (column : Nat) : List Char :=
  columnToLetterGo column []

/-- A spreadsheet cell value: the source's rows hold `string | boolean`. -/
inductive Cell where
  | str : List Char → Cell
  | bool : Bool → Cell
deriving DecidableEq

/-- A team member (`Member` of src/types.ts); src/config.ts requires `name`
to be present. -/
structure Member where
  name : List Char
deriving DecidableEq

/-- Decimal rendering of a number, as JS template literals produce for
non-negative integers. -/
def natToChars (n : Nat) : List Char :=
  (Nat.repr n).data

/-- The completion formula pushed next to each member's name in row 1 of
src/checklist.ts `buildSideBySideRows` (the `longest > 0` branch). -/
def completionFormulaChars (checkboxCol : List Char) (dataStartRow dataEndRow longest : Nat) :
    List Char :=
  "=IF(COUNTIF(".data ++ checkboxCol ++ natToChars dataStartRow ++ ":".data ++
    checkboxCol ++ natToChars dataEndRow ++ ",TRUE)=".data ++ natToChars longest ++
    ",\"✓ Done!\",\"\")".data

/-- Row 1 of src/checklist.ts `buildSideBySideRows`: per member (at running
index `memberIndex`), the member name, the completion formula (or an empty
string when there are no items) and two blank cells. -/
def memberNameRowAux (longest dataStartRow dataEndRow : Nat) :
    List Member → Nat → List Cell
  | [], _ => []
  | m :: rest, memberIndex =>
    Cell.str m.name ::
      (if 0 < longest then
        Cell.str (completionFormulaChars (columnToLetter (memberIndex * 4))
          dataStartRow dataEndRow longest)
      else Cell.str []) ::
      Cell.str [] :: Cell.str [] :: memberNameRowAux longest dataStartRow dataEndRow rest (memberIndex + 1)

/-- Row 2 of src/checklist.ts `buildSideBySideRows`: fixed sub-headers per
member. -/
def headerRowAux : List Member → List Cell
  | [] => []
  | _ :: rest =>
    Cell.str "✓".data :: Cell.str "PR".data :: Cell.str "Owner".data ::
      Cell.str "Description".data :: headerRowAux rest

/-- One data row of src/checklist.ts `buildSideBySideRows`: the item at
index `i` (when it exists) is repeated for every member with an unchecked
checkbox; a missing item yields four empty strings. -/
def dataRowAux (item : Option ChecklistItem) : List Member → List Cell
  | [] => []
  | _ :: rest =>
    (match item with
      | some it => [Cell.bool false, Cell.str it.prUrl, Cell.str it.author, Cell.str it.note]
      | none => [Cell.str [], Cell.str [], Cell.str [], Cell.str []]) ++ dataRowAux item rest

/-- src/checklist.ts `buildSideBySideRows`: two header rows, then one data
row per item (`longest = items.length`), with one four-cell block per
member in every row. -/
def buildSideBySideRows (items : List ChecklistItem) (members : List Member) :
    List (List Cell) :=
  let longest := items.length
  let dataStartRow := 3
  let dataEndRow := dataStartRow + longest - 1
  memberNameRowAux longest dataStartRow dataEndRow members 0 ::
    headerRowAux members ::
    (List.range longest).map (fun i => dataRowAux items[i]? members)

end Checklist

namespace Github

/-- The stable marker delimiting the generated link section
(`LINK_SECTION_MARKER` of src/github.ts). -/
def LINK_SECTION_MARKER : List Char :=
  "<!-- checklist-to-sheets -->".data

/-- JS `GetSubstitution` for a string replacement argument with no capture
groups: dollar-dollar, dollar-ampersand, dollar-backquote and
dollar-apostrophe expand to a dollar sign, the matched substring, the part
before the match and the part after the match; everything else is copied
verbatim. -/
def expandReplacement : List Char → List Char → List Char → List Char → List Char
  | [], _, _, _ => []
  | c :: rest, matched, before, after =>
    if c = '$' then
      match rest with
      | [] => ['$']
      | c2 :: rest2 =>
        if c2 = '$' then '$' :: expandReplacement rest2 matched before after
        else if c2 = '&' then matched ++ expandReplacement rest2 matched before after
        else if c2 = Char.ofNat 96 then before ++ expandReplacement rest2 matched before after
        else if c2 = Char.ofNat 39 then after ++ expandReplacement rest2 matched before after
        else '$' :: c2 :: expandReplacement rest2 matched before after
    else c :: expandReplacement rest matched before after

/-- The freshly built link section: marker, newline, a markdown link
`[text](link)`, newline, marker. -/
def sectionChars (link text : List Char) : List Char :=
  LINK_SECTION_MARKER ++
    '\n' :: '[' :: (text ++ ']' :: '(' :: (link ++ ')' :: '\n' :: LINK_SECTION_MARKER))

/-- The part of the freshly built link section strictly between its two
markers. -/
def midChars (link text : List Char) : List Char :=
  '\n' :: '[' :: (text ++ ']' :: '(' :: (link ++ [')', '\n']))

/-- src/github.ts `upsertLinkSection`.  When the body contains the marker,
the first non-greedy marker-to-marker span is replaced by the section (the
replacement string going through JS dollar-substitution); the match starts
at the first marker occurrence and ends at the first marker occurrence at
or after the end of that one (a later start cannot have a partner unless
the first does), and if no such pair exists `String.replace` leaves the
body unchanged.  When the body does not contain the marker, the section is
appended after a blank line. -/
def upsertLinkSection (body link text : List Char) : List Char :=
  if containsSubstr body LINK_SECTION_MARKER then
    match findSubstrFrom body LINK_SECTION_MARKER 0 with
    | none => body
    | some i =>
      match findSubstrFrom body LINK_SECTION_MARKER (i + LINK_SECTION_MARKER.length) with
      | none => body
      | some j =>
        let stop := j + LINK_SECTION_MARKER.length
        body.take i ++
          expandReplacement (sectionChars link text)
            ((body.drop i).take (stop - i)) (body.take i) (body.drop stop) ++
          body.drop stop
  else body ++ '\n' :: '\n' :: sectionChars link text

end Github

namespace MainRun

/-- A pull-request source document (`PrChecklistSource` of src/types.ts). -/
structure PrChecklistSource where
  number : Nat
  body : List Char
  author : List Char
  url : List Char
deriving DecidableEq

/-- The deduplication loop of `run` (src/index.ts): push each source whose
number has not been seen, recording seen numbers. -/
def dedupSources : List PrChecklistSource → List Nat → List PrChecklistSource
  | [], _ => []
  | s :: rest, seen =>
    if s.number ∈ seen then dedupSources rest seen
    else s :: dedupSources rest (s.number :: seen)

/-- `allSources` of `run` (src/index.ts): the merged pull requests
deduplicated by number in order, with the current pull request appended
when its number is not already present. -/
def buildAllSources (mergedPrs : List PrChecklistSource) (current : PrChecklistSource) :
    List PrChecklistSource :=
  let deduped := dedupSources mergedPrs []
  if current.number ∈ deduped.map (·.number) then deduped else deduped ++ [current]

/-- The items contributed by one source document: the body of the
aggregation loop of `run` (src/index.ts). -/
def sourceItems (startMarker endMarker : List Char) (src : PrChecklistSource) :
    List Checklist.ChecklistItem :=
  Checklist.parseChecklistBlock src.body startMarker endMarker src.url src.author

/-- The aggregation loop of `run` (src/index.ts): parse each source in
order and concatenate the items. -/
def aggregateItems (sources : List PrChecklistSource) (startMarker endMarker : List Char) :
    List Checklist.ChecklistItem :=
  match sources with
  | [] => []
  | src :: rest =>
    sourceItems startMarker endMarker src ++ aggregateItems rest startMarker endMarker

end MainRun

namespace ReviewerAction

/-- A reviewer (per-reviewer action variant): an id and an optional display
name. -/
structure Reviewer where
  id : List Char
  displayName : Option (List Char)
deriving DecidableEq

/-- A parsed checkbox item of the per-reviewer action variant. -/
structure ChecklistItem where
  done : Bool
  note : List Char
  prUrl : List Char
  author : List Char
deriving DecidableEq

/-- A reviewer together with the items parsed for them. -/
structure ParsedReviewerChecklist where
  reviewer : Reviewer
  items : List ChecklistItem
deriving DecidableEq

/-- One (already trimmed) line matched against the checkbox grammar: dash,
space, an opening bracket, a single bracketed character that is a space or
(case-insensitively) the letter x, a closing bracket, then a whitespace run
and a non-empty capture to the end of the line.  The done flag is true
exactly when the bracketed character lowercases to x; the note is the
trimmed capture (the whitespace run backtracks so the capture keeps at
least one character, and composing with the final trim yields `trim` of
everything after the brackets). -/
def parseCheckboxLine : List Char → Option (Bool × List Char)
  | '-' :: ' ' :: '[' :: c :: ']' :: rest =>
    if (c = ' ' || c = 'x' || c = 'X') && !rest.isEmpty then
      some (c = 'x' || c = 'X', trim rest)
    else none
  | _ => none

/-- The line loop of the per-reviewer `parseChecklistBlock`: interpret each
line with the checkbox grammar, skipping (not aborting on) unparsable
lines, stamping the origin url and author onto every produced item. -/
def interpretCheckboxLines (lines : List (List Char)) (prUrl author : List Char) :
    List ChecklistItem :=
  lines.filterMap (fun line =>
    (parseCheckboxLine line).map (fun p => ⟨p.1, p.2, prUrl, author⟩))

/-- The per-reviewer `parseChecklistBlock`: find the fenced block opened by
three backquotes, the tag and a newline and closed by three backquotes
(the source compiles the tag into the pattern unescaped; it is modelled as
a literal, which is exact for tags without regex metacharacters), split the
span into trimmed non-blank lines and interpret them as checkbox lines. -/
def parseChecklistBlock (body tag : List Char) (reviewer : Reviewer)
    (prUrl author : List Char) : ParsedReviewerChecklist :=
  let fenceOpen := Char.ofNat 96 :: Char.ofNat 96 :: Char.ofNat 96 :: (tag ++ ['\n'])
  let fenceClose := [Char.ofNat 96, Char.ofNat 96, Char.ofNat 96]
  match findSubstrFrom body fenceOpen 0 with
  | none => ⟨reviewer, []⟩
  | some i =>
    match findSubstrFrom body fenceClose (i + fenceOpen.length) with
    | none => ⟨reviewer, []⟩
    | some j =>
      let span := (body.drop (i + fenceOpen.length)).take (j - (i + fenceOpen.length))
      let lines := ((splitOnNewline span).map trim).filter (fun l => !l.isEmpty)
      ⟨reviewer, interpretCheckboxLines lines prUrl author⟩

/-- The display label used in header row 2: `displayName || id` (JS
falsiness: a present but empty display name falls back to the id). -/
def displayLabel (r : Reviewer) : List Char :=
  match r.displayName with
  | some d => if d.isEmpty then r.id else d
  | none => r.id

/-- Header row 1 of the per-reviewer `buildSideBySideRows`: per checklist a
fixed label, two blanks and a done-count ratio text. -/
def headerRow1Aux : List ParsedReviewerChecklist → List Checklist.Cell
  | [] => []
  | cl :: rest =>
    Checklist.Cell.str "チェックリスト".data :: Checklist.Cell.str [] :: Checklist.Cell.str [] ::
      Checklist.Cell.str
        (Checklist.natToChars (cl.items.countP (·.done)) ++ "/".data ++
          Checklist.natToChars cl.items.length ++ "チェック完了".data) ::
      headerRow1Aux rest

/-- Header row 2 of the per-reviewer `buildSideBySideRows`: checkbox, PR
and owner sub-headers, then the reviewer's display label. -/
def headerRow2Aux : List ParsedReviewerChecklist → List Checklist.Cell
  | [] => []
  | cl :: rest =>
    Checklist.Cell.str "✓".data :: Checklist.Cell.str "該当PR".data ::
      Checklist.Cell.str "オーナー".data :: Checklist.Cell.str (displayLabel cl.reviewer) ::
      headerRow2Aux rest

/-- One data row of the per-reviewer `buildSideBySideRows`: per checklist,
either the item at `rowIndex` (done flag, PR url, author, note) or four
empty strings when that checklist is shorter. -/
def dataRowAux (rowIndex : Nat) : List ParsedReviewerChecklist → List Checklist.Cell
  | [] => []
  | cl :: rest =>
    (match cl.items[rowIndex]? with
      | some item =>
        [Checklist.Cell.bool item.done, Checklist.Cell.str item.prUrl,
          Checklist.Cell.str item.author, Checklist.Cell.str item.note]
      | none =>
        [Checklist.Cell.str [], Checklist.Cell.str [], Checklist.Cell.str [],
          Checklist.Cell.str []]) ++ dataRowAux rowIndex rest

/-- `Math.max(...lengths, 0)`: the longest entry-list length. -/
def longestLength (parsed : List ParsedReviewerChecklist) : Nat :=
  (parsed.map (·.items.length)).foldr max 0

/-- The per-reviewer `buildSideBySideRows`: two header rows, then
`longestLength` data rows, with one four-cell block per reviewer in every
row. -/
def buildSideBySideRows (parsed : List ParsedReviewerChecklist) :
    List (List Checklist.Cell) :=
  headerRow1Aux parsed :: headerRow2Aux parsed ::
    (List.range (longestLength parsed)).map (fun rowIndex => dataRowAux rowIndex parsed)

end ReviewerAction

/-- The letter value of a column character: A ↦ 1, …, Z ↦ 26 (the digit
alphabet of the bijective base-26 column-naming scheme). -/
def letterVal (c : Char) : Nat :=
  c.toNat - 64

/-- The bijective base-26 value of a column label: A ↦ 1, Z ↦ 26, AA ↦ 27,
ZZ ↦ 702.  A label denotes the 0-based column `bijBase26Val s - 1`. -/
def bijBase26Val (s : List Char) : Nat :=
  s.foldl (fun acc c => acc * 26 + letterVal c) 0

/-- A well-formed column label: non-empty and using only the letters A
through Z. -/
def ValidLabel (s : List Char) : Prop :=
  s ≠ [] ∧ ∀ c ∈ s, 65 ≤ c.toNat ∧ c.toNat ≤ 90

instance (s : List Char) : Decidable (ValidLabel s) := by
  unfold ValidLabel
  infer_instance

theorem findSubstrAux_some {pat : List Char} :
    ∀ {body : List Char} {acc j : Nat}, findSubstrAux pat body acc = some j →
      acc ≤ j ∧ pat <+: body.drop (j - acc) ∧
        ∀ m, m < j - acc → ¬ pat <+: body.drop m := by
  intro body
  induction body with
  | nil =>
    intro acc j h
    simp only [findSubstrAux] at h
    split at h
    · rename_i hpre
      cases h
      refine ⟨Nat.le_refl _, ?_, ?_⟩
      · simpa using List.isPrefixOf_iff_prefix.mp hpre
      · omega
    · cases h
  | cons c rest ih =>
    intro acc j h
    simp only [findSubstrAux] at h
    split at h
    · rename_i hpre
      cases h
      refine ⟨Nat.le_refl _, ?_, ?_⟩
      · simpa using List.isPrefixOf_iff_prefix.mp hpre
      · omega
    · rename_i hpre
      obtain ⟨h1, h2, h3⟩ := ih h
      refine ⟨by omega, ?_, ?_⟩
      · have : j - acc = (j - (acc + 1)) + 1 := by omega
        rw [this]
        simpa using h2
      · intro m hm
        match m with
        | 0 =>
          simp only [List.drop_zero]
          intro hc
          exact hpre (List.isPrefixOf_iff_prefix.mpr hc)
        | m' + 1 =>
          have := h3 m' (by omega)
          simpa using this

theorem findSubstrAux_none {pat : List Char} :
    ∀ {body : List Char} {acc : Nat}, findSubstrAux pat body acc = none →
      ∀ m, ¬ pat <+: body.drop m := by
  intro body
  induction body with
  | nil =>
    intro acc h m
    simp only [findSubstrAux] at h
    split at h
    · cases h
    · rename_i hpre
      intro hc
      exact hpre (List.isPrefixOf_iff_prefix.mpr (by simpa using hc))
  | cons c rest ih =>
    intro acc h m
    simp only [findSubstrAux] at h
    split at h
    · cases h
    · rename_i hpre
      match m with
      | 0 =>
        simp only [List.drop_zero]
        intro hc
        exact hpre (List.isPrefixOf_iff_prefix.mpr hc)
      | m' + 1 =>
        simpa using ih h m'

theorem occursAt_drop {pat body : List Char} {s k : Nat} :
    OccursAt pat (body.drop s) k ↔ OccursAt pat body (s + k) := by
  simp [OccursAt, List.drop_drop]

theorem findSubstrFrom_some {body pat : List Char} {s j : Nat}
    (h : findSubstrFrom body pat s = some j) :
    s ≤ j ∧ OccursAt pat body j ∧ ∀ m, s ≤ m → m < j → ¬ OccursAt pat body m := by
  unfold findSubstrFrom at h
  split at h
  · cases h
  · rename_i k hk
    cases h
    obtain ⟨-, h2, h3⟩ := findSubstrAux_some hk
    refine ⟨by omega, ?_, ?_⟩
    · exact occursAt_drop.mp (by simpa [OccursAt] using h2)
    · intro m hm1 hm2 hc
      have : OccursAt pat (body.drop s) (m - s) := by
        rw [occursAt_drop]
        have : s + (m - s) = m := by omega
        rw [this]
        exact hc
      exact h3 (m - s) (by omega) this

theorem findSubstrFrom_none {body pat : List Char} {s : Nat}
    (h : findSubstrFrom body pat s = none) :
    ∀ m, s ≤ m → ¬ OccursAt pat body m := by
  unfold findSubstrFrom at h
  split at h
  · rename_i hnone
    intro m hm hc
    have : OccursAt pat (body.drop s) (m - s) := by
      rw [occursAt_drop]
      have : s + (m - s) = m := by omega
      rw [this]
      exact hc
    exact findSubstrAux_none hnone (m - s) this
  · cases h

theorem findSubstrFrom_isSome {body pat : List Char} {s m : Nat}
    (hocc : OccursAt pat body m) (hm : s ≤ m) :
    (findSubstrFrom body pat s).isSome := by
  cases h : findSubstrFrom body pat s with
  | none => exact absurd hocc (findSubstrFrom_none h m hm)
  | some j => rfl

/-- `findSubstrFrom` returns exactly the least occurrence position `≥ s`. -/
theorem findSubstrFrom_eq_some {body pat : List Char} {s j : Nat}
    (hocc : OccursAt pat body j) (hs : s ≤ j)
    (hmin : ∀ m, s ≤ m → m < j → ¬ OccursAt pat body m) :
    findSubstrFrom body pat s = some j := by
  cases h : findSubstrFrom body pat s with
  | none => exact absurd hocc (findSubstrFrom_none h j hs)
  | some j' =>
    obtain ⟨hs', hocc', hmin'⟩ := findSubstrFrom_some h
    rcases Nat.lt_trichotomy j' j with hlt | heq | hgt
    · exact absurd hocc' (hmin j' hs' hlt)
    · rw [heq]
    · exact absurd hocc (hmin' j hs hgt)

theorem OccursAt.add_length_le {pat body : List Char} {k : Nat}
    (h : OccursAt pat body k) (hne : pat ≠ []) : k + pat.length ≤ body.length := by
  have h1 : pat.length ≤ (body.drop k).length := h.length_le
  have h2 : (body.drop k).length = body.length - k := List.length_drop _ _
  have h3 : 0 < pat.length := List.length_pos.mpr hne
  omega

theorem OccursAt.getElem? {pat body : List Char} {k : Nat}
    (h : OccursAt pat body k) {r : Nat} (hr : r < pat.length) :
    body[k + r]? = pat[r]? := by
  have heq : pat = (body.drop k).take pat.length := List.prefix_iff_eq_take.mp h
  calc body[k + r]? = (body.drop k)[r]? := (List.getElem?_drop _ _ _).symm
    _ = ((body.drop k).take pat.length)[r]? := (List.getElem?_take_of_lt hr).symm
    _ = pat[r]? := by rw [← heq]

/-- An occurrence of `pat` cannot cover a position holding a character that
is not in `pat`. -/
theorem occurs_cover_char {pat body : List Char} {k : Nat} (q : Nat) (ch : Char)
    (h : OccursAt pat body k) (hq1 : k ≤ q) (hq2 : q < k + pat.length)
    (hch : body[q]? = some ch) (hnot : ch ∉ pat) : False := by
  have hr : q - k < pat.length := by omega
  have := h.getElem? hr
  rw [show k + (q - k) = q by omega, hch] at this
  exact hnot (List.getElem?_mem this.symm)

/-- Two overlapping occurrences of the same pattern force a self-overlap of
the pattern (its tail from `d` is one of its own prefixes). -/
theorem occurs_overlap_self {pat body : List Char} {k d : Nat}
    (h1 : OccursAt pat body k) (h2 : OccursAt pat body (k + d))
    (hlt : d < pat.length) : pat.drop d <+: pat := by
  rw [List.prefix_iff_eq_take]
  apply List.ext_getElem?
  intro i
  rcases Nat.lt_or_ge i ((pat.drop d).length) with hi | hi
  · have hlen : (pat.drop d).length = pat.length - d := List.length_drop _ _
    have hdi : d + i < pat.length := by omega
    have e1 : (pat.drop d)[i]? = pat[d + i]? := List.getElem?_drop _ _ _
    have e2 : body[k + (d + i)]? = pat[d + i]? := h1.getElem? hdi
    have e3 : body[(k + d) + i]? = pat[i]? := h2.getElem? (by omega)
    have e4 : (pat.take ((pat.drop d).length))[i]? = pat[i]? :=
      List.getElem?_take_of_lt hi
    rw [e1, e4, ← e2, ← e3, Nat.add_assoc]
  · have h5 : (pat.drop d)[i]? = none := List.getElem?_eq_none hi
    have h6 : (pat.take ((pat.drop d).length))[i]? = none := by
      apply List.getElem?_eq_none
      have := List.length_take_le ((pat.drop d).length) pat
      omega
    rw [h5, h6]

theorem occursAt_append_left {pat xs ys : List Char} {k : Nat}
    (h : OccursAt pat xs k) : OccursAt pat (xs ++ ys) k := by
  unfold OccursAt at *
  rw [List.drop_append_eq_append_drop]
  exact h.trans (List.prefix_append _ _)

theorem occursAt_append_right {pat xs ys : List Char} {k : Nat}
    (h : OccursAt pat ys k) : OccursAt pat (xs ++ ys) (xs.length + k) := by
  unfold OccursAt at *
  rw [List.drop_append]
  exact h

theorem occursAt_of_append_left {pat xs ys : List Char} {k : Nat}
    (h : OccursAt pat (xs ++ ys) k) (hfit : k + pat.length ≤ xs.length) :
    OccursAt pat xs k := by
  unfold OccursAt at *
  rw [List.drop_append_eq_append_drop] at h
  have hA : pat.length ≤ (xs.drop k).length := by
    rw [List.length_drop]
    omega
  have h2 := List.prefix_iff_eq_take.mp h
  rw [List.take_append_of_le_length hA] at h2
  rw [List.prefix_iff_eq_take]
  exact h2

theorem occursAt_of_append_right {pat xs ys : List Char} {k : Nat}
    (h : OccursAt pat (xs ++ ys) k) (hk : xs.length ≤ k) :
    OccursAt pat ys (k - xs.length) := by
  unfold OccursAt at *
  rw [List.drop_append_eq_append_drop, List.drop_eq_nil_of_le hk] at h
  simpa using h

theorem occursAt_of_take {pat body : List Char} {n k : Nat}
    (h : OccursAt pat (body.take n) k) : OccursAt pat body k := by
  unfold OccursAt at *
  rw [List.drop_take] at h
  exact (List.prefix_take_iff.mp h).1


theorem trim_cons_of_ws {a : Char} (ha : isWsChar a = true) (t : List Char) :
    trim (a :: t) = trim t := by
  simp [trim, List.dropWhile_cons, ha]

/-- C2 (amended): for every document body and start/end markers (matched
literally, as the source escapes all regex metacharacters), if every
occurrence of the end marker lies before the end of every occurrence of the
start marker — in particular when the start marker does not occur at all,
or when the end marker only occurs before the first start marker —
`parseChecklistBlock` returns the empty list (and, being a total function,
never throws). -/
theorem parseChecklistBlock_no_span_empty
    (body s e prUrl author : List Char)
    (h : ∀ i j, OccursAt s body i → OccursAt e body j → j < i + s.length) :
    Checklist.parseChecklistBlock body s e prUrl author = [] := by
  unfold Checklist.parseChecklistBlock
  split
  · rfl
  · rename_i i hs
    split
    · rfl
    · rename_i j he
      exfalso
      obtain ⟨-, hocc, -⟩ := findSubstrFrom_some hs
      obtain ⟨hle, hocce, -⟩ := findSubstrFrom_some he
      have := h i j hocc hocce
      omega

/-- Witness for C2: a body without the start marker yields no items. -/
theorem parseChecklistBlock_no_span_empty_witness :
    Checklist.parseChecklistBlock "no markers here".data "<s>".data "<e>".data
      "u".data "a".data = [] := by
  apply parseChecklistBlock_no_span_empty
  intro i j hi _
  exfalso
  have hne : ("<s>".data : List Char) ≠ [] := by decide
  have hb := hi.add_length_le hne
  have e1 : ("<s>".data : List Char).length = 3 := by decide
  have e2 : ("no markers here".data : List Char).length = 15 := by decide
  rw [e1, e2] at hb
  have : i ≤ 12 := by omega
  interval_cases i <;> exact absurd hi (by decide)

/-- C2 counterexample: in the body "<e><s>\n- a\n<e>" the end marker occurs
(at position 0) before the first occurrence of the start marker (at
position 3), yet extraction returns a non-empty item list, because another
end marker follows the start marker. -/
theorem parseChecklistBlock_end_before_start_not_empty :
    OccursAt "<e>".data "<e><s>\n- a\n<e>".data 0 ∧
    findSubstrFrom "<e><s>\n- a\n<e>".data "<s>".data 0 = some 3 ∧
    Checklist.parseChecklistBlock "<e><s>\n- a\n<e>".data "<s>".data "<e>".data
      "u".data "a".data = [⟨"a".data, "u".data, "a".data⟩] :=
  ⟨by decide, by decide, by decide⟩

/-- C3: a trimmed checkbox line consisting of a dash, a space and a single
bracketed character `c` followed by a space and the item text is
interpreted with `doneState = true` and the trimmed text as note when `c`
is `x` or `X`, with `doneState = false` when `c` is a space, and is skipped
(producing no entry and leaving the interpretation of all later lines
unchanged) for every other bracket character. -/
theorem interpretCheckboxLines_spec (c : Char) (text : List Char)
    (restLines : List (List Char)) (prUrl author : List Char) :
    ((c = 'x' ∨ c = 'X') →
      ReviewerAction.interpretCheckboxLines
          (('-' :: ' ' :: '[' :: c :: ']' :: ' ' :: text) :: restLines) prUrl author =
        ⟨true, trim text, prUrl, author⟩ ::
          ReviewerAction.interpretCheckboxLines restLines prUrl author) ∧
    (c = ' ' →
      ReviewerAction.interpretCheckboxLines
          (('-' :: ' ' :: '[' :: c :: ']' :: ' ' :: text) :: restLines) prUrl author =
        ⟨false, trim text, prUrl, author⟩ ::
          ReviewerAction.interpretCheckboxLines restLines prUrl author) ∧
    (c ≠ ' ' → c ≠ 'x' → c ≠ 'X' →
      ReviewerAction.interpretCheckboxLines
          (('-' :: ' ' :: '[' :: c :: ']' :: ' ' :: text) :: restLines) prUrl author =
        ReviewerAction.interpretCheckboxLines restLines prUrl author) := by
  refine ⟨?_, ?_, ?_⟩
  · rintro (rfl | rfl) <;> rfl
  · rintro rfl
    rfl
  · intro h1 h2 h3
    show List.filterMap _ _ = List.filterMap _ _
    rw [List.filterMap_cons]
    have : ReviewerAction.parseCheckboxLine
        ('-' :: ' ' :: '[' :: c :: ']' :: ' ' :: text) = none := by
      show (if _ then _ else _) = none
      rw [if_neg]
      simp only [decide_eq_false h1, decide_eq_false h2, decide_eq_false h3,
        Bool.or_self, Bool.false_or, Bool.false_and, Bool.false_eq_true,
        not_false_eq_true]
    rw [this]
    rfl

/-- Witness for C3: a concrete checked line followed by a skipped line. -/
theorem interpretCheckboxLines_spec_witness :
    ReviewerAction.interpretCheckboxLines
        [('-' :: ' ' :: '[' :: 'x' :: ']' :: ' ' :: "foo".data)] "u".data "a".data =
      [⟨true, trim "foo".data, "u".data, "a".data⟩] :=
  (interpretCheckboxLines_spec 'x' "foo".data [] "u".data "a".data).1 (Or.inl rfl)

theorem dedupSources_not_seen (l : List MainRun.PrChecklistSource) :
    ∀ (seen : List Nat) (t : MainRun.PrChecklistSource),
      t ∈ MainRun.dedupSources l seen → t.number ∉ seen := by
  induction l with
  | nil =>
    intro seen t ht
    simp [MainRun.dedupSources] at ht
  | cons s rest ih =>
    intro seen t ht
    simp only [MainRun.dedupSources] at ht
    split at ht
    · exact ih seen t ht
    · rename_i hs
      rcases List.mem_cons.mp ht with rfl | hmem
      · exact hs
      · intro hcon
        exact ih (s.number :: seen) t hmem (List.mem_cons_of_mem _ hcon)

theorem dedupSources_find (l : List MainRun.PrChecklistSource) :
    ∀ (seen : List Nat) (t : MainRun.PrChecklistSource),
      t ∈ MainRun.dedupSources l seen →
        l.find? (fun s => s.number == t.number) = some t := by
  induction l with
  | nil =>
    intro seen t ht
    simp [MainRun.dedupSources] at ht
  | cons s rest ih =>
    intro seen t ht
    simp only [MainRun.dedupSources] at ht
    split at ht
    · rename_i hs
      have hne : s.number ≠ t.number := by
        intro h
        exact dedupSources_not_seen rest seen t ht (h ▸ hs)
      rw [List.find?_cons_of_neg _ (by simpa using hne), ih seen t ht]
    · rename_i hs
      rcases List.mem_cons.mp ht with rfl | hmem
      · rw [List.find?_cons_of_pos _ (by simp)]
      · have hnot := dedupSources_not_seen rest (s.number :: seen) t hmem
        have hne : s.number ≠ t.number := by
          intro h
          exact hnot (by rw [← h]; exact List.mem_cons_self _ _)
        rw [List.find?_cons_of_neg _ (by simpa using hne), ih _ t hmem]

theorem dedupSources_sublist (l : List MainRun.PrChecklistSource) :
    ∀ seen : List Nat, List.Sublist (MainRun.dedupSources l seen) l := by
  induction l with
  | nil =>
    intro seen
    simp [MainRun.dedupSources]
  | cons s rest ih =>
    intro seen
    simp only [MainRun.dedupSources]
    split
    · exact (ih seen).trans (List.sublist_cons_self _ _)
    · exact (ih _).cons₂ s

theorem dedupSources_mem_number (l : List MainRun.PrChecklistSource) :
    ∀ (seen : List Nat) (n : Nat),
      n ∈ (MainRun.dedupSources l seen).map (·.number) ↔
        n ∈ l.map (·.number) ∧ n ∉ seen := by
  induction l with
  | nil =>
    intro seen n
    simp [MainRun.dedupSources]
  | cons s rest ih =>
    intro seen n
    simp only [MainRun.dedupSources]
    split
    · rename_i hs
      rw [ih]
      simp only [List.map_cons, List.mem_cons]
      constructor
      · rintro ⟨h1, h2⟩
        exact ⟨Or.inr h1, h2⟩
      · rintro ⟨h1 | h1, h2⟩
        · exact absurd (h1 ▸ hs) h2
        · exact ⟨h1, h2⟩
    · rename_i hs
      simp only [List.map_cons, List.mem_cons, ih, List.mem_cons]
      constructor
      · rintro (rfl | ⟨h1, h2⟩)
        · exact ⟨Or.inl rfl, hs⟩
        · exact ⟨Or.inr h1, fun hseen => h2 (Or.inr hseen)⟩
      · rintro ⟨rfl | h1, h2⟩
        · exact Or.inl rfl
        · by_cases hn : n = s.number
          · exact Or.inl hn
          · exact Or.inr ⟨h1, by simp [hn, h2]⟩

theorem dedupSources_nodup (l : List MainRun.PrChecklistSource) :
    ∀ seen : List Nat, ((MainRun.dedupSources l seen).map (·.number)).Nodup := by
  induction l with
  | nil =>
    intro seen
    simp [MainRun.dedupSources]
  | cons s rest ih =>
    intro seen
    simp only [MainRun.dedupSources]
    split
    · exact ih seen
    · simp only [List.map_cons, List.nodup_cons]
      refine ⟨fun hmem => ?_, ih _⟩
      exact ((dedupSources_mem_number rest _ s.number).mp hmem).2 (List.mem_cons_self _ _)

/-- C6: the source set built by `run` contains each pull-request number at
most once, the first occurrence (in merged-PR order) winning and relative
order preserved, and the currently-active pull request's number is present
exactly once, the current document being appended at the end if and only if
its number was not already included. -/
theorem buildAllSources_spec (mergedPrs : List MainRun.PrChecklistSource)
    (current : MainRun.PrChecklistSource) :
    ((MainRun.buildAllSources mergedPrs current).map (·.number)).Nodup ∧
    List.Sublist (MainRun.dedupSources mergedPrs []) mergedPrs ∧
    (∀ t ∈ MainRun.dedupSources mergedPrs [],
      mergedPrs.find? (fun s => s.number == t.number) = some t) ∧
    ((MainRun.buildAllSources mergedPrs current).map (·.number)).count current.number = 1 ∧
    (current.number ∉ (MainRun.dedupSources mergedPrs []).map (·.number) →
      MainRun.buildAllSources mergedPrs current =
        MainRun.dedupSources mergedPrs [] ++ [current]) ∧
    (current.number ∈ (MainRun.dedupSources mergedPrs []).map (·.number) →
      MainRun.buildAllSources mergedPrs current = MainRun.dedupSources mergedPrs []) := by
  by_cases hm : current.number ∈ (MainRun.dedupSources mergedPrs []).map (·.number)
  · have hall : MainRun.buildAllSources mergedPrs current =
        MainRun.dedupSources mergedPrs [] := by
      simp only [MainRun.buildAllSources]
      rw [if_pos hm]
    refine ⟨?_, dedupSources_sublist _ _, fun t ht => dedupSources_find _ _ t ht, ?_, ?_, ?_⟩
    · rw [hall]
      exact dedupSources_nodup _ _
    · rw [hall]
      exact List.count_eq_one_of_mem (dedupSources_nodup _ _) hm
    · intro hno
      exact absurd hm hno
    · intro _
      exact hall
  · have hall : MainRun.buildAllSources mergedPrs current =
        MainRun.dedupSources mergedPrs [] ++ [current] := by
      simp only [MainRun.buildAllSources]
      rw [if_neg hm]
    refine ⟨?_, dedupSources_sublist _ _, fun t ht => dedupSources_find _ _ t ht, ?_, ?_, ?_⟩
    · rw [hall, List.map_append, List.nodup_append]
      refine ⟨dedupSources_nodup _ _, by simp, ?_⟩
      intro n hn
      simp only [List.map_cons, List.map_nil, List.mem_singleton]
      intro hc
      exact hm (hc ▸ hn)
    · rw [hall, List.map_append, List.count_append]
      rw [List.count_eq_zero.mpr hm]
      simp
    · intro _
      exact hall
    · intro hyes
      exact absurd hyes hm

/-- Witness for C6: two sources sharing number 1 followed by number 2, with
the current pull request also number 2: the duplicate is dropped, the first
occurrence of number 1 wins, and the current document is not re-appended. -/
theorem buildAllSources_spec_witness :
    MainRun.buildAllSources
        [⟨1, "b1".data, "a1".data, "u1".data⟩, ⟨1, "b2".data, "a2".data, "u2".data⟩,
          ⟨2, "b3".data, "a3".data, "u3".data⟩]
        ⟨2, "cb".data, "ca".data, "cu".data⟩ =
      MainRun.dedupSources
        [⟨1, "b1".data, "a1".data, "u1".data⟩, ⟨1, "b2".data, "a2".data, "u2".data⟩,
          ⟨2, "b3".data, "a3".data, "u3".data⟩] [] :=
  (buildAllSources_spec _ _).2.2.2.2.2 (by decide)

/-- C7: aggregation preserves document order and line order: the aggregated
list tiles exactly as the per-document item lists in document order, so
every entry extracted from an earlier document appears before every entry
extracted from a later document, and within one document entries keep their
original order. -/
theorem aggregateItems_ordering (sources : List MainRun.PrChecklistSource)
    (sm em : List Char) :
    (MainRun.aggregateItems sources sm em).length =
      (sources.map (fun src => (MainRun.sourceItems sm em src).length)).sum ∧
    ∀ (i : Nat) (hi : i < sources.length) (k : Nat),
      k < (MainRun.sourceItems sm em sources[i]).length →
      (MainRun.aggregateItems sources sm em)[((sources.take i).map
          (fun src => (MainRun.sourceItems sm em src).length)).sum + k]? =
        (MainRun.sourceItems sm em sources[i])[k]? := by
  induction sources with
  | nil =>
    refine ⟨rfl, ?_⟩
    intro i hi
    simp at hi
  | cons src rest ih =>
    refine ⟨?_, ?_⟩
    · simp only [MainRun.aggregateItems, List.length_append, List.map_cons, List.sum_cons,
        ih.1]
    · intro i hi k hk
      match i with
      | 0 =>
        simp only [List.take_zero, List.map_nil, List.sum_nil, Nat.zero_add]
        simp only [List.getElem_cons_zero] at hk ⊢
        show (MainRun.sourceItems sm em src ++ MainRun.aggregateItems rest sm em)[k]? = _
        rw [List.getElem?_append_left hk]
      | i' + 1 =>
        simp only [List.take_succ_cons, List.map_cons, List.sum_cons,
          List.getElem_cons_succ] at hk ⊢
        show (MainRun.sourceItems sm em src ++ MainRun.aggregateItems rest sm em)[_]? = _
        rw [List.getElem?_append_right (by omega)]
        have harith : (MainRun.sourceItems sm em src).length +
            ((rest.take i').map (fun src => (MainRun.sourceItems sm em src).length)).sum + k -
            (MainRun.sourceItems sm em src).length =
            ((rest.take i').map (fun src => (MainRun.sourceItems sm em src).length)).sum + k := by
          omega
        rw [harith]
        exact ih.2 i' (by simpa using hi) k hk

/-- Witness for C7: two concrete documents, one item each; the second
document's item sits immediately after the first document's block. -/
theorem aggregateItems_ordering_witness :
    (MainRun.aggregateItems
        [⟨1, "<s>\n- one\n<e>".data, "a1".data, "u1".data⟩,
          ⟨2, "<s>\n- two\n<e>".data, "a2".data, "u2".data⟩] "<s>".data "<e>".data)[1]? =
      (MainRun.sourceItems "<s>".data "<e>".data
        ⟨2, "<s>\n- two\n<e>".data, "a2".data, "u2".data⟩)[0]? := by
  have h := (aggregateItems_ordering
    [⟨1, "<s>\n- one\n<e>".data, "a1".data, "u1".data⟩,
      ⟨2, "<s>\n- two\n<e>".data, "a2".data, "u2".data⟩] "<s>".data "<e>".data).2 1
    (by decide) 0 (by decide)
  simpa using h

theorem headerRow1Aux_length (parsed : List ReviewerAction.ParsedReviewerChecklist) :
    (ReviewerAction.headerRow1Aux parsed).length = 4 * parsed.length := by
  induction parsed with
  | nil => rfl
  | cons cl rest ih =>
    simp only [ReviewerAction.headerRow1Aux, List.length_cons, ih]
    omega

theorem headerRow2Aux_length (parsed : List ReviewerAction.ParsedReviewerChecklist) :
    (ReviewerAction.headerRow2Aux parsed).length = 4 * parsed.length := by
  induction parsed with
  | nil => rfl
  | cons cl rest ih =>
    simp only [ReviewerAction.headerRow2Aux, List.length_cons, ih]
    omega

theorem rdataRowAux_length (r : Nat) (parsed : List ReviewerAction.ParsedReviewerChecklist) :
    (ReviewerAction.dataRowAux r parsed).length = 4 * parsed.length := by
  induction parsed with
  | nil => rfl
  | cons cl rest ih =>
    cases h : cl.items[r]? <;>
      simp only [ReviewerAction.dataRowAux, h, List.length_append, List.length_cons,
        List.length_nil, ih] <;>
      omega

theorem rdataRowAux_getElem_empty (r : Nat) :
    ∀ (parsed : List ReviewerAction.ParsedReviewerChecklist) (p t : Nat)
      (hp : p < parsed.length), t < 4 → parsed[p].items.length ≤ r →
      (ReviewerAction.dataRowAux r parsed)[4 * p + t]? = some (Checklist.Cell.str []) := by
  intro parsed
  induction parsed with
  | nil =>
    intro p t hp
    simp at hp
  | cons cl rest ih =>
    intro p t hp ht hr
    match p with
    | 0 =>
      simp only [List.getElem_cons_zero] at hr
      have hnone : cl.items[r]? = none := List.getElem?_eq_none hr
      simp only [ReviewerAction.dataRowAux, hnone, Nat.mul_zero, Nat.zero_add]
      rw [List.getElem?_append_left (by simp only [List.length_cons, List.length_nil,
        List.cons_append, List.nil_append]; omega)]
      interval_cases t <;> rfl
    | p' + 1 =>
      simp only [List.getElem_cons_succ] at hr
      simp only [ReviewerAction.dataRowAux]
      have hblock : (match cl.items[r]? with
          | some item => [Checklist.Cell.bool item.done, Checklist.Cell.str item.prUrl,
              Checklist.Cell.str item.author, Checklist.Cell.str item.note]
          | none => [Checklist.Cell.str [], Checklist.Cell.str [], Checklist.Cell.str [],
              Checklist.Cell.str []]).length = 4 := by
        cases cl.items[r]? <;> rfl
      rw [List.getElem?_append_right (by rw [hblock]; omega)]
      rw [hblock]
      rw [show 4 * (p' + 1) + t - 4 = 4 * p' + t by omega]
      exact ih p' t (by simpa using hp) ht hr

theorem cmemberNameRowAux_length (a b c : Nat) :
    ∀ (members : List Checklist.Member) (mi : Nat),
      (Checklist.memberNameRowAux a b c members mi).length = 4 * members.length := by
  intro members
  induction members with
  | nil => intro mi; rfl
  | cons m rest ih =>
    intro mi
    simp only [Checklist.memberNameRowAux, List.length_cons, ih]
    omega

theorem cheaderRowAux_length (members : List Checklist.Member) :
    (Checklist.headerRowAux members).length = 4 * members.length := by
  induction members with
  | nil => rfl
  | cons m rest ih =>
    simp only [Checklist.headerRowAux, List.length_cons, ih]
    omega

theorem cdataRowAux_length (item : Option Checklist.ChecklistItem)
    (members : List Checklist.Member) :
    (Checklist.dataRowAux item members).length = 4 * members.length := by
  induction members with
  | nil => rfl
  | cons m rest ih =>
    cases item <;>
      simp only [Checklist.dataRowAux, List.length_append, List.length_cons,
        List.length_nil, ih] <;>
      omega

/-- C8: rectangularity of the side-by-side grids.  The per-reviewer grid has
exactly `longestLength + 2` rows (the fold of `max` over the per-participant
entry-list lengths), every row has exactly `4 * k` cells for a roster of
size `k`, and a participant whose list is shorter than the longest one gets
empty-string cells (never omitted) in the remaining data rows; the
shared-roster broadcast variant of src/checklist.ts likewise produces
`items.length + 2` rows of `4 * members.length` cells each. -/
theorem buildSideBySideRows_rectangular (parsed : List ReviewerAction.ParsedReviewerChecklist) :
    (ReviewerAction.buildSideBySideRows parsed).length = ReviewerAction.longestLength parsed + 2 ∧
    (∀ row ∈ ReviewerAction.buildSideBySideRows parsed, row.length = 4 * parsed.length) ∧
    (∀ (r p t : Nat) (hp : p < parsed.length), t < 4 → parsed[p].items.length ≤ r →
      r < ReviewerAction.longestLength parsed →
      ((ReviewerAction.buildSideBySideRows parsed)[2 + r]?.bind (fun row => row[4 * p + t]?)) =
        some (Checklist.Cell.str [])) ∧
    ∀ (items : List Checklist.ChecklistItem) (members : List Checklist.Member),
      (Checklist.buildSideBySideRows items members).length = items.length + 2 ∧
      ∀ row ∈ Checklist.buildSideBySideRows items members, row.length = 4 * members.length := by
  refine ⟨?_, ?_, ?_, ?_⟩
  · simp only [ReviewerAction.buildSideBySideRows, List.length_cons, List.length_map,
      List.length_range]
  · intro row hrow
    simp only [ReviewerAction.buildSideBySideRows, List.mem_cons] at hrow
    rcases hrow with rfl | rfl | hrow
    · exact headerRow1Aux_length parsed
    · exact headerRow2Aux_length parsed
    · obtain ⟨i, hi, rfl⟩ := List.mem_map.mp hrow
      exact rdataRowAux_length _ parsed
  · intro r p t hp ht hr hlong
    have hrow : (ReviewerAction.buildSideBySideRows parsed)[2 + r]? =
        some (ReviewerAction.dataRowAux r parsed) := by
      simp only [ReviewerAction.buildSideBySideRows]
      rw [show 2 + r = (r + 1) + 1 by omega]
      simp only [List.getElem?_cons_succ, List.getElem?_map, List.getElem?_range hlong,
        Option.map_some]
      rfl
    rw [hrow, Option.some_bind]
    exact rdataRowAux_getElem_empty r parsed p t hp ht hr
  · intro items members
    constructor
    · simp only [Checklist.buildSideBySideRows, List.length_cons, List.length_map,
        List.length_range]
    · intro row hrow
      simp only [Checklist.buildSideBySideRows, List.mem_cons] at hrow
      rcases hrow with rfl | rfl | hrow
      · exact cmemberNameRowAux_length _ _ _ members 0
      · exact cheaderRowAux_length members
      · obtain ⟨i, hi, rfl⟩ := List.mem_map.mp hrow
        exact cdataRowAux_length _ members

/-- Witness for C8: a two-reviewer roster with entry lists of lengths 1 and
0; the second reviewer's block in the first data row is empty strings. -/
theorem buildSideBySideRows_rectangular_witness :
    ((ReviewerAction.buildSideBySideRows
        [⟨⟨"r1".data, none⟩, [⟨true, "n".data, "u".data, "a".data⟩]⟩,
          ⟨⟨"r2".data, none⟩, []⟩])[2 + 0]?.bind (fun row => row[4 * 1 + 2]?)) =
      some (Checklist.Cell.str []) :=
  (buildSideBySideRows_rectangular
      [⟨⟨"r1".data, none⟩, [⟨true, "n".data, "u".data, "a".data⟩]⟩,
        ⟨⟨"r2".data, none⟩, []⟩]).2.2.1 0 1 2 (by decide) (by decide) (by decide) (by decide)

theorem cmemberNameRowAux_getElem_formula (longest a b : Nat) :
    ∀ (members : List Checklist.Member) (mi q : Nat), q < members.length →
      (Checklist.memberNameRowAux longest a b members mi)[4 * q + 1]? =
        some (if 0 < longest then
          Checklist.Cell.str (Checklist.completionFormulaChars
            (Checklist.columnToLetter ((mi + q) * 4)) a b longest)
        else Checklist.Cell.str []) := by
  intro members
  induction members with
  | nil =>
    intro mi q h
    simp at h
  | cons m rest ih =>
    intro mi q hq
    match q with
    | 0 =>
      simp only [Checklist.memberNameRowAux, Nat.mul_zero, Nat.zero_add, Nat.add_zero,
        List.getElem?_cons_succ, List.getElem?_cons_zero]
    | q' + 1 =>
      simp only [Checklist.memberNameRowAux]
      rw [show 4 * (q' + 1) + 1 = (4 * q' + 1) + 1 + 1 + 1 + 1 by omega]
      simp only [List.getElem?_cons_succ]
      rw [ih (mi + 1) q' (by simpa using hq)]
      rw [show mi + 1 + q' = mi + (q' + 1) by omega]

theorem cdataRowAux_getElem_bool (it : Checklist.ChecklistItem) :
    ∀ (members : List Checklist.Member) (p : Nat), p < members.length →
      (Checklist.dataRowAux (some it) members)[4 * p]? =
        some (Checklist.Cell.bool false) := by
  intro members
  induction members with
  | nil =>
    intro p h
    simp at h
  | cons m rest ih =>
    intro p hp
    match p with
    | 0 => rfl
    | p' + 1 =>
      simp only [Checklist.dataRowAux]
      rw [List.getElem?_append_right (by simp only [List.length_cons, List.length_nil,
        List.cons_append, List.nil_append]; omega)]
      have : 4 * (p' + 1) -
          ((match some it with
            | some item => [Checklist.Cell.bool false, Checklist.Cell.str item.prUrl,
                Checklist.Cell.str item.author, Checklist.Cell.str item.note]
            | none => [Checklist.Cell.str [], Checklist.Cell.str [], Checklist.Cell.str [],
                Checklist.Cell.str []]) : List Checklist.Cell).length = 4 * p' := by
        simp only [List.length_cons, List.length_nil]
        omega
      rw [this]
      exact ih p' (by simpa using hp)

/-- C9: in the broadcast side-by-side layout with a non-empty item list of
length `n`, the completion-indicator cell of participant `p` in the first
header row is the formula counting TRUE over the column labelled
`columnToLetter (p * 4)` from 1-based row 3 to row `n + 2` and comparing
the count with `n`; the grid indeed has `n + 2` rows, and in every data row
(1-based rows 3 through `n + 2`) the cell at absolute column offset
`p * 4` is that participant's boolean checkbox cell. -/
theorem buildSideBySideRows_formula (items : List Checklist.ChecklistItem)
    (members : List Checklist.Member) (p : Nat)
    (hn : 0 < items.length) (hp : p < members.length) :
    ((Checklist.buildSideBySideRows items members)[0]?.bind
        (fun row => row[4 * p + 1]?)) =
      some (Checklist.Cell.str (Checklist.completionFormulaChars
        (Checklist.columnToLetter (p * 4)) 3 (items.length + 2) items.length)) ∧
    (Checklist.buildSideBySideRows items members).length = items.length + 2 ∧
    ∀ r, 2 ≤ r → r < items.length + 2 →
      ((Checklist.buildSideBySideRows items members)[r]?.bind (fun row => row[4 * p]?)) =
        some (Checklist.Cell.bool false) := by
  refine ⟨?_, ?_, ?_⟩
  · have h0 : (Checklist.buildSideBySideRows items members)[0]? =
        some (Checklist.memberNameRowAux items.length 3 (3 + items.length - 1) members 0) := rfl
    rw [h0, Option.some_bind,
      cmemberNameRowAux_getElem_formula items.length 3 (3 + items.length - 1) members 0 p hp,
      if_pos hn, show (0 + p) * 4 = p * 4 by omega,
      show 3 + items.length - 1 = items.length + 2 by omega]
  · simp only [Checklist.buildSideBySideRows, List.length_cons, List.length_map,
      List.length_range]
  · intro r h2 hlt
    have hr2 : r - 2 < items.length := by omega
    have hrow : (Checklist.buildSideBySideRows items members)[r]? =
        some (Checklist.dataRowAux items[r - 2]? members) := by
      simp only [Checklist.buildSideBySideRows]
      rw [show r = (r - 2 + 1) + 1 by omega]
      simp only [List.getElem?_cons_succ, List.getElem?_map, List.getElem?_range hr2,
        Option.map_some]
      rfl
    rw [hrow, Option.some_bind, List.getElem?_eq_getElem hr2]
    exact cdataRowAux_getElem_bool _ members p hp

/-- Witness for C9: one item and two members; member index 1 gets the
formula over column E (= columnToLetter 4) rows 3 through 3. -/
theorem buildSideBySideRows_formula_witness :
    ((Checklist.buildSideBySideRows [⟨"n".data, "u".data, "a".data⟩]
        [⟨"Alice".data⟩, ⟨"Bob".data⟩])[0]?.bind (fun row => row[4 * 1 + 1]?)) =
      some (Checklist.Cell.str (Checklist.completionFormulaChars
        (Checklist.columnToLetter (1 * 4)) 3
        ([(⟨"n".data, "u".data, "a".data⟩ : Checklist.ChecklistItem)].length + 2)
        [(⟨"n".data, "u".data, "a".data⟩ : Checklist.ChecklistItem)].length)) :=
  (buildSideBySideRows_formula [⟨"n".data, "u".data, "a".data⟩]
    [⟨"Alice".data⟩, ⟨"Bob".data⟩] 1 (by decide) (by decide)).1

theorem columnToLetterGo_pos {temp : Int} (h : 0 ≤ temp) (letter : List Char) :
    Checklist.columnToLetterGo temp letter =
      Checklist.columnToLetterGo (temp / 26 - 1)
        (Char.ofNat ((temp % 26).toNat + 65) :: letter) := by
  rw [Checklist.columnToLetterGo]
  rw [dif_pos h]

theorem columnToLetterGo_neg {temp : Int} (h : ¬ 0 ≤ temp) (letter : List Char) :
    Checklist.columnToLetterGo temp letter = letter := by
  rw [Checklist.columnToLetterGo]
  rw [dif_neg h]

theorem columnToLetterGo_append_aux (n : Nat) :
    ∀ (temp : Int), (temp + 1).toNat ≤ n → ∀ letter,
      Checklist.columnToLetterGo temp letter =
        Checklist.columnToLetterGo temp [] ++ letter := by
  induction n with
  | zero =>
    intro temp h letter
    have hneg : ¬ 0 ≤ temp := by omega
    rw [columnToLetterGo_neg hneg, columnToLetterGo_neg hneg]
    simp
  | succ n ih =>
    intro temp h letter
    by_cases hpos : 0 ≤ temp
    · rw [columnToLetterGo_pos hpos, columnToLetterGo_pos hpos]
      rw [ih (temp / 26 - 1) (by omega) (Char.ofNat ((temp % 26).toNat + 65) :: letter),
        ih (temp / 26 - 1) (by omega) [Char.ofNat ((temp % 26).toNat + 65)]]
      simp
    · rw [columnToLetterGo_neg hpos, columnToLetterGo_neg hpos]
      simp

theorem columnToLetterGo_append (temp : Int) (letter : List Char) :
    Checklist.columnToLetterGo temp letter =
      Checklist.columnToLetterGo temp [] ++ letter :=
  columnToLetterGo_append_aux ((temp + 1).toNat) temp (Nat.le_refl _) letter

theorem char_toNat_ofNat_add65 {d : Nat} (h : d < 26) :
    (Char.ofNat (d + 65)).toNat = d + 65 := by
  interval_cases d <;> decide

theorem columnToLetter_lt26 {n : Nat} (h : n < 26) :
    Checklist.columnToLetter n = [Char.ofNat (n + 65)] := by
  unfold Checklist.columnToLetter
  rw [columnToLetterGo_pos (by exact_mod_cast Nat.zero_le n)]
  have h1 : ¬ (0 : Int) ≤ (n : Int) / 26 - 1 := by omega
  rw [columnToLetterGo_neg h1]
  have h2 : ((n : Int) % 26).toNat = n := by omega
  rw [h2]

theorem columnToLetter_ge26 {n : Nat} (h : 26 ≤ n) :
    Checklist.columnToLetter n =
      Checklist.columnToLetter (n / 26 - 1) ++ [Char.ofNat (n % 26 + 65)] := by
  unfold Checklist.columnToLetter
  rw [columnToLetterGo_pos (by exact_mod_cast Nat.zero_le n)]
  rw [columnToLetterGo_append]
  have h1 : (n : Int) / 26 - 1 = ((n / 26 - 1 : Nat) : Int) := by omega
  have h2 : ((n : Int) % 26).toNat = n % 26 := by omega
  rw [h1, h2]

theorem bijVal_append_singleton (s : List Char) (c : Char) :
    bijBase26Val (s ++ [c]) = bijBase26Val s * 26 + letterVal c := by
  simp [bijBase26Val, List.foldl_append]

theorem columnToLetter_val (n : Nat) :
    ValidLabel (Checklist.columnToLetter n) ∧
      bijBase26Val (Checklist.columnToLetter n) = n + 1 := by
  induction n using Nat.strong_induction_on with
  | _ n ih =>
    by_cases h : n < 26
    · rw [columnToLetter_lt26 h]
      refine ⟨⟨by simp, ?_⟩, ?_⟩
      · intro c hc
        rw [List.mem_singleton] at hc
        subst hc
        rw [char_toNat_ofNat_add65 h]
        omega
      · have := char_toNat_ofNat_add65 h
        simp [bijBase26Val, letterVal, this]
    · push_neg at h
      rw [columnToLetter_ge26 h]
      have hlt : n / 26 - 1 < n := by omega
      obtain ⟨⟨hne, hmem⟩, hval⟩ := ih (n / 26 - 1) hlt
      have hm : n % 26 < 26 := Nat.mod_lt _ (by omega)
      refine ⟨⟨by simp, ?_⟩, ?_⟩
      · intro c hc
        rw [List.mem_append] at hc
        rcases hc with hc | hc
        · exact hmem c hc
        · rw [List.mem_singleton] at hc
          subst hc
          rw [char_toNat_ofNat_add65 hm]
          omega
      · rw [bijVal_append_singleton, hval]
        have hlv : letterVal (Char.ofNat (n % 26 + 65)) = n % 26 + 1 := by
          unfold letterVal
          rw [char_toNat_ofNat_add65 hm]
          omega
        rw [hlv]
        omega

theorem char_eq_of_toNat_eq {c d : Char} (h : c.toNat = d.toNat) : c = d :=
  Char.ext (UInt32.toNat.inj h)

theorem bijVal_inj (N : Nat) :
    ∀ (s t : List Char), s.length ≤ N →
      (∀ c ∈ s, 65 ≤ c.toNat ∧ c.toNat ≤ 90) →
      (∀ c ∈ t, 65 ≤ c.toNat ∧ c.toNat ≤ 90) →
      bijBase26Val s = bijBase26Val t → s = t := by
  induction N with
  | zero =>
    intro s t hs hvs hvt hval
    have hsnil : s = [] := List.eq_nil_of_length_eq_zero (by omega)
    subst hsnil
    rcases List.eq_nil_or_concat t with rfl | ⟨t', d, rfl⟩
    · rfl
    · exfalso
      simp only [List.concat_eq_append] at hvt hval
      rw [bijVal_append_singleton] at hval
      have hd := hvt d (by simp)
      have : 1 ≤ letterVal d := by unfold letterVal at *; omega
      simp [bijBase26Val] at hval
      omega
  | succ N ih =>
    intro s t hs hvs hvt hval
    rcases List.eq_nil_or_concat s with rfl | ⟨s', c, rfl⟩
    · rcases List.eq_nil_or_concat t with rfl | ⟨t', d, rfl⟩
      · rfl
      · exfalso
        simp only [List.concat_eq_append] at hvt hval
        rw [bijVal_append_singleton] at hval
        have hd := hvt d (by simp)
        have : 1 ≤ letterVal d := by unfold letterVal at *; omega
        simp [bijBase26Val] at hval
        omega
    · rcases List.eq_nil_or_concat t with rfl | ⟨t', d, rfl⟩
      · exfalso
        simp only [List.concat_eq_append] at hvs hval
        rw [bijVal_append_singleton] at hval
        have hc := hvs c (by simp)
        have : 1 ≤ letterVal c := by unfold letterVal at *; omega
        simp [bijBase26Val] at hval
        omega
      · simp only [List.concat_eq_append] at hvs hvt hval hs ⊢
        rw [bijVal_append_singleton, bijVal_append_singleton] at hval
        have hc := hvs c (by simp)
        have hd := hvt d (by simp)
        have hlc : 1 ≤ letterVal c ∧ letterVal c ≤ 26 := by unfold letterVal; omega
        have hld : 1 ≤ letterVal d ∧ letterVal d ≤ 26 := by unfold letterVal; omega
        have heq : letterVal c = letterVal d ∧ bijBase26Val s' = bijBase26Val t' := by
          constructor <;> omega
        have hcd : c = d := by
          apply char_eq_of_toNat_eq
          have := heq.1
          unfold letterVal at this
          omega
        have hst : s' = t' := by
          apply ih s' t' (by simp at hs; omega)
            (fun x hx => hvs x (by simp [hx]))
            (fun x hx => hvt x (by simp [hx])) heq.2
        rw [hcd, hst]

/-- C1: `columnToLetter` realises the bijective base-26 spreadsheet column
labelling: for every `n` the result is a non-empty string over A throughout
Z whose bijective base-26 value (A ↦ 1, …, Z ↦ 26, so 0 ↦ "A", 25 ↦ "Z",
26 ↦ "AA", 701 ↦ "ZZ") is `n + 1`, and it is the unique such label. -/
theorem columnToLetter_bijective (n : Nat) :
    ValidLabel (Checklist.columnToLetter n) ∧
    bijBase26Val (Checklist.columnToLetter n) = n + 1 ∧
    ∀ s, ValidLabel s → bijBase26Val s = n + 1 → s = Checklist.columnToLetter n := by
  obtain ⟨hv, hval⟩ := columnToLetter_val n
  refine ⟨hv, hval, ?_⟩
  intro s hs hsv
  exact bijVal_inj s.length s (Checklist.columnToLetter n) (Nat.le_refl _) hs.2 hv.2
    (hsv.trans hval.symm)

/-- Witness for C1: "ZZ" is the label of column 701. -/
theorem columnToLetter_bijective_witness :
    ValidLabel ['Z', 'Z'] ∧ bijBase26Val ['Z', 'Z'] = 702 ∧
      ['Z', 'Z'] = Checklist.columnToLetter 701 :=
  ⟨by decide, by decide,
    (columnToLetter_bijective 701).2.2 ['Z', 'Z'] (by decide) (by decide)⟩

theorem marker_length : Github.LINK_SECTION_MARKER.length = 28 := by decide

theorem marker_ne_nil : Github.LINK_SECTION_MARKER ≠ [] := by decide

theorem newline_not_mem_marker : '\n' ∉ Github.LINK_SECTION_MARKER := by decide

theorem dollar_not_mem_marker : '$' ∉ Github.LINK_SECTION_MARKER := by decide

theorem marker_no_self_overlap :
    ∀ d, d < 28 → 0 < d →
      ¬ (Github.LINK_SECTION_MARKER.drop d <+: Github.LINK_SECTION_MARKER) := by
  decide

theorem marker_occurs_no_overlap {body : List Char} {k k' : Nat}
    (h1 : OccursAt Github.LINK_SECTION_MARKER body k)
    (h2 : OccursAt Github.LINK_SECTION_MARKER body k')
    (hlt : k < k') (hlt2 : k' < k + 28) : False := by
  have hd : k' = k + (k' - k) := by omega
  rw [hd] at h2
  have hov := occurs_overlap_self h1 h2 (by rw [marker_length]; omega)
  exact marker_no_self_overlap (k' - k) (by omega) (by omega) hov

/-- A string shorter than the marker contains no occurrence of it. -/
theorem short_no_occurs {s : List Char} (h : s.length < 28) :
    ∀ k, ¬ OccursAt Github.LINK_SECTION_MARKER s k := by
  intro k hk
  have := hk.add_length_le marker_ne_nil
  rw [marker_length] at this
  omega

theorem sectionChars_decomp (link text : List Char) :
    Github.sectionChars link text =
      (Github.LINK_SECTION_MARKER ++ Github.midChars link text) ++
        Github.LINK_SECTION_MARKER := by
  simp [Github.sectionChars, Github.midChars]

theorem sectionChars_decomp2 (link text : List Char) :
    Github.sectionChars link text =
      Github.LINK_SECTION_MARKER ++
        (Github.midChars link text ++ Github.LINK_SECTION_MARKER) := by
  simp [Github.sectionChars, Github.midChars]

theorem midChars_length (link text : List Char) :
    (Github.midChars link text).length = 6 + text.length + link.length := by
  simp [Github.midChars]
  omega

theorem sectionChars_length (link text : List Char) :
    (Github.sectionChars link text).length = 62 + text.length + link.length := by
  rw [sectionChars_decomp]
  simp [List.length_append, marker_length, midChars_length]
  omega

theorem midM_assoc (link text : List Char) :
    Github.midChars link text ++ Github.LINK_SECTION_MARKER =
      '\n' :: '[' :: (text ++ (']' :: '(' ::
        (link ++ (')' :: '\n' :: Github.LINK_SECTION_MARKER)))) := by
  simp [Github.midChars]

theorem expandReplacement_of_no_dollar {repl : List Char} (h : '$' ∉ repl)
    (matched before after : List Char) :
    Github.expandReplacement repl matched before after = repl := by
  induction repl with
  | nil => rfl
  | cons c rest ih =>
    have hc : c ≠ '$' := fun hcc => h (by simp [hcc])
    have hrest : '$' ∉ rest := fun hr => h (List.mem_cons_of_mem _ hr)
    rw [Github.expandReplacement.eq_def]
    dsimp only
    rw [if_neg hc, ih hrest]

theorem dollar_not_mem_sectionChars {link text : List Char}
    (hdt : '$' ∉ text) (hdl : '$' ∉ link) :
    '$' ∉ Github.sectionChars link text := by
  intro h
  simp only [Github.sectionChars, List.mem_append, List.mem_cons] at h
  rcases h with h | h | h | h | h | h | h | h | h | h
  · exact dollar_not_mem_marker h
  · exact absurd h (by decide)
  · exact absurd h (by decide)
  · exact hdt h
  · exact absurd h (by decide)
  · exact absurd h (by decide)
  · exact hdl h
  · exact absurd h (by decide)
  · exact absurd h (by decide)
  · exact dollar_not_mem_marker h

theorem sec_interior_not_occurs {link text : List Char}
    (htext : ∀ k, ¬ OccursAt Github.LINK_SECTION_MARKER text k)
    (hlink : ∀ k, ¬ OccursAt Github.LINK_SECTION_MARKER link k) :
    ∀ k, 28 ≤ k → k < 34 + text.length + link.length →
      ¬ OccursAt Github.LINK_SECTION_MARKER (Github.sectionChars link text) k := by
  intro k hk1 hklt hocc
  rw [sectionChars_decomp2] at hocc
  have h1 : OccursAt Github.LINK_SECTION_MARKER
      (Github.midChars link text ++ Github.LINK_SECTION_MARKER) (k - 28) := by
    have := occursAt_of_append_right hocc (by rw [marker_length]; omega)
    rwa [marker_length] at this
  rw [midM_assoc] at h1
  set k2 := k - 28 with hk2def
  have hk2lt : k2 < 6 + text.length + link.length := by omega
  rcases Nat.lt_or_ge k2 2 with hk2a | hk2a
  · interval_cases k2
    · exact occurs_cover_char 0 '\n' h1 (Nat.le_refl 0) (by rw [marker_length]; omega) rfl
        newline_not_mem_marker
    · exact occurs_cover_char 1 '[' h1 (Nat.le_refl 1) (by rw [marker_length]; omega)
        (by simp) (by decide)
  · have h2 : OccursAt Github.LINK_SECTION_MARKER
        (text ++ (']' :: '(' :: (link ++ (')' :: '\n' :: Github.LINK_SECTION_MARKER))))
        (k2 - 2) :=
      @occursAt_of_append_right Github.LINK_SECTION_MARKER ['\n', '[']
        (text ++ (']' :: '(' :: (link ++ (')' :: '\n' :: Github.LINK_SECTION_MARKER))))
        k2 h1 hk2a
    set k3 := k2 - 2 with hk3def
    by_cases hfit : k3 + 28 ≤ text.length
    · exact htext k3 (occursAt_of_append_left h2 (by rw [marker_length]; exact hfit))
    · by_cases hk3b : k3 < text.length
      · refine occurs_cover_char text.length ']' h2 (by omega)
          (by rw [marker_length]; omega) ?_ (by decide)
        rw [List.getElem?_append_right (Nat.le_refl _)]
        simp
      · have h3 : OccursAt Github.LINK_SECTION_MARKER
            (']' :: '(' :: (link ++ (')' :: '\n' :: Github.LINK_SECTION_MARKER)))
            (k3 - text.length) :=
          occursAt_of_append_right h2 (by omega)
        set k4 := k3 - text.length with hk4def
        rcases Nat.lt_or_ge k4 2 with hk4a | hk4a
        · interval_cases k4
          · exact occurs_cover_char 0 ']' h3 (Nat.le_refl 0) (by rw [marker_length]; omega) rfl
              (by decide)
          · exact occurs_cover_char 1 '(' h3 (Nat.le_refl 1) (by rw [marker_length]; omega)
              (by simp) (by decide)
        · have h4 : OccursAt Github.LINK_SECTION_MARKER
              (link ++ (')' :: '\n' :: Github.LINK_SECTION_MARKER)) (k4 - 2) :=
            @occursAt_of_append_right Github.LINK_SECTION_MARKER [']', '(']
              (link ++ (')' :: '\n' :: Github.LINK_SECTION_MARKER)) k4 h3 hk4a
          set k5 := k4 - 2 with hk5def
          by_cases hfit2 : k5 + 28 ≤ link.length
          · exact hlink k5 (occursAt_of_append_left h4 (by rw [marker_length]; exact hfit2))
          · by_cases hk5b : k5 < link.length
            · refine occurs_cover_char link.length ')' h4 (by omega)
                (by rw [marker_length]; omega) ?_ (by decide)
              rw [List.getElem?_append_right (Nat.le_refl _)]
              simp
            · have h5 : OccursAt Github.LINK_SECTION_MARKER
                  (')' :: '\n' :: Github.LINK_SECTION_MARKER) (k5 - link.length) :=
                occursAt_of_append_right h4 (by omega)
              set k6 := k5 - link.length with hk6def
              have hk6 : k6 < 2 := by omega
              interval_cases k6
              · exact occurs_cover_char 0 ')' h5 (Nat.le_refl 0)
                  (by rw [marker_length]; omega) rfl (by decide)
              · exact occurs_cover_char 1 '\n' h5 (Nat.le_refl 1)
                  (by rw [marker_length]; omega) (by simp) newline_not_mem_marker

theorem sec_occurs_iff {link text : List Char}
    (htext : ∀ k, ¬ OccursAt Github.LINK_SECTION_MARKER text k)
    (hlink : ∀ k, ¬ OccursAt Github.LINK_SECTION_MARKER link k) (k : Nat) :
    OccursAt Github.LINK_SECTION_MARKER (Github.sectionChars link text) k ↔
      (k = 0 ∨ k = 34 + text.length + link.length) := by
  constructor
  · intro hocc
    have hlen := hocc.add_length_le marker_ne_nil
    rw [marker_length, sectionChars_length] at hlen
    by_cases h0 : k = 0
    · exact Or.inl h0
    · right
      by_cases hk : k < 28
      · exfalso
        have hocc0 : OccursAt Github.LINK_SECTION_MARKER (Github.sectionChars link text) 0 := by
          show Github.LINK_SECTION_MARKER <+: (Github.sectionChars link text).drop 0
          rw [List.drop_zero, sectionChars_decomp2]
          exact List.prefix_append _ _
        exact marker_occurs_no_overlap hocc0 hocc (by omega) (by omega)
      · by_cases hk2 : k < 34 + text.length + link.length
        · exact absurd hocc (sec_interior_not_occurs htext hlink k (by omega) hk2)
        · omega
  · intro h
    rcases h with rfl | rfl
    · show Github.LINK_SECTION_MARKER <+: (Github.sectionChars link text).drop 0
      rw [List.drop_zero, sectionChars_decomp2]
      exact List.prefix_append _ _
    · have h0 : OccursAt Github.LINK_SECTION_MARKER Github.LINK_SECTION_MARKER 0 := by
        show Github.LINK_SECTION_MARKER <+: Github.LINK_SECTION_MARKER.drop 0
        rw [List.drop_zero]
      have h1 := @occursAt_append_right Github.LINK_SECTION_MARKER
        (Github.LINK_SECTION_MARKER ++ Github.midChars link text)
        Github.LINK_SECTION_MARKER 0 h0
      rw [← sectionChars_decomp] at h1
      have harith : (Github.LINK_SECTION_MARKER ++ Github.midChars link text).length + 0 =
          34 + text.length + link.length := by
        rw [List.length_append, marker_length, midChars_length]
        omega
      rwa [harith] at h1

theorem upsert_append_eq {body link text : List Char}
    (h : containsSubstr body Github.LINK_SECTION_MARKER = false) :
    Github.upsertLinkSection body link text =
      body ++ '\n' :: '\n' :: Github.sectionChars link text := by
  unfold Github.upsertLinkSection
  rw [if_neg (by simp [h])]

theorem upsert_replace_eq {body link text : List Char} {i j : Nat}
    (hi : findSubstrFrom body Github.LINK_SECTION_MARKER 0 = some i)
    (hj : findSubstrFrom body Github.LINK_SECTION_MARKER
      (i + Github.LINK_SECTION_MARKER.length) = some j)
    (hsec : '$' ∉ Github.sectionChars link text) :
    Github.upsertLinkSection body link text =
      body.take i ++ Github.sectionChars link text ++
        body.drop (j + Github.LINK_SECTION_MARKER.length) := by
  have hcontains : containsSubstr body Github.LINK_SECTION_MARKER = true := by
    unfold containsSubstr
    rw [hi]
    rfl
  unfold Github.upsertLinkSection
  rw [if_pos hcontains]
  split
  · rename_i hnone
    rw [hi] at hnone
    cases hnone
  · rename_i i' hi'
    rw [hi] at hi'
    injection hi' with hii
    subst hii
    split
    · rename_i hnone
      rw [hj] at hnone
      cases hnone
    · rename_i j' hj'
      rw [hj] at hj'
      injection hj' with hjj
      subst hjj
      dsimp only
      rw [expandReplacement_of_no_dollar hsec]

theorem upsert_no_partner {body link text : List Char} {i : Nat}
    (hi : findSubstrFrom body Github.LINK_SECTION_MARKER 0 = some i)
    (hj : findSubstrFrom body Github.LINK_SECTION_MARKER
      (i + Github.LINK_SECTION_MARKER.length) = none) :
    Github.upsertLinkSection body link text = body := by
  have hcontains : containsSubstr body Github.LINK_SECTION_MARKER = true := by
    unfold containsSubstr
    rw [hi]
    rfl
  unfold Github.upsertLinkSection
  rw [if_pos hcontains]
  split
  · rfl
  · rename_i i' hi'
    rw [hi] at hi'
    injection hi' with hii
    subst hii
    split
    · rfl
    · rename_i j' hj'
      rw [hj] at hj'
      cases hj'

theorem upsert_unpaired {body link text : List Char}
    (h : ∃! k, OccursAt Github.LINK_SECTION_MARKER body k) :
    Github.upsertLinkSection body link text = body := by
  obtain ⟨k0, hk0, huniq⟩ := h
  have hsome := findSubstrFrom_isSome hk0 (Nat.zero_le _)
  rcases hfind : findSubstrFrom body Github.LINK_SECTION_MARKER 0 with _ | i
  · rw [hfind] at hsome
    simp at hsome
  · rcases hj : findSubstrFrom body Github.LINK_SECTION_MARKER
        (i + Github.LINK_SECTION_MARKER.length) with _ | j
    · exact upsert_no_partner hfind hj
    · exfalso
      obtain ⟨-, hocci, -⟩ := findSubstrFrom_some hfind
      obtain ⟨hle, hoccj, -⟩ := findSubstrFrom_some hj
      have h1 := huniq i hocci
      have h2 := huniq j hoccj
      rw [marker_length] at hle
      omega

theorem no_occurs_of_not_contains {body : List Char}
    (h : containsSubstr body Github.LINK_SECTION_MARKER = false) :
    ∀ m, ¬ OccursAt Github.LINK_SECTION_MARKER body m := by
  intro m hm
  have hsome := findSubstrFrom_isSome hm (Nat.zero_le _)
  unfold containsSubstr at h
  cases hsome.symm.trans h

theorem no_occurs_before_boundary {pre tail : List Char}
    (hpre : ∀ m, ¬ OccursAt Github.LINK_SECTION_MARKER pre m)
    (hb : OccursAt Github.LINK_SECTION_MARKER (pre ++ tail) pre.length) :
    ∀ k, k < pre.length → ¬ OccursAt Github.LINK_SECTION_MARKER (pre ++ tail) k := by
  intro k hk hocc
  by_cases hfit : k + 28 ≤ pre.length
  · exact hpre k (occursAt_of_append_left hocc (by rw [marker_length]; exact hfit))
  · exact marker_occurs_no_overlap hocc hb hk (by omega)

theorem append_nl2_no_occurs {body : List Char}
    (hnoM : ∀ m, ¬ OccursAt Github.LINK_SECTION_MARKER body m) :
    ∀ k, ¬ OccursAt Github.LINK_SECTION_MARKER (body ++ ['\n', '\n']) k := by
  intro k hk
  have hlen := hk.add_length_le marker_ne_nil
  rw [marker_length, List.length_append] at hlen
  simp only [List.length_cons, List.length_nil] at hlen
  by_cases hfit : k + 28 ≤ body.length
  · exact hnoM k (occursAt_of_append_left hk (by rw [marker_length]; exact hfit))
  · have hkb : k ≤ body.length := by omega
    refine occurs_cover_char body.length '\n' hk hkb (by rw [marker_length]; omega) ?_
      newline_not_mem_marker
    rw [List.getElem?_append_right (Nat.le_refl _)]
    simp

theorem upsert_of_shape {link text : List Char}
    (htext : ∀ k, ¬ OccursAt Github.LINK_SECTION_MARKER text k)
    (hlink : ∀ k, ¬ OccursAt Github.LINK_SECTION_MARKER link k)
    (hdt : '$' ∉ text) (hdl : '$' ∉ link)
    (pre post : List Char)
    (hpre : ∀ k, ¬ OccursAt Github.LINK_SECTION_MARKER pre k) :
    Github.upsertLinkSection (pre ++ (Github.sectionChars link text ++ post)) link text =
      pre ++ (Github.sectionChars link text ++ post) := by
  have hocc1 : OccursAt Github.LINK_SECTION_MARKER
      (pre ++ (Github.sectionChars link text ++ post)) pre.length := by
    have h0 : OccursAt Github.LINK_SECTION_MARKER
        (Github.sectionChars link text ++ post) 0 := by
      show Github.LINK_SECTION_MARKER <+: ((Github.sectionChars link text ++ post)).drop 0
      rw [List.drop_zero, sectionChars_decomp2, List.append_assoc]
      exact List.prefix_append _ _
    have h1 := @occursAt_append_right Github.LINK_SECTION_MARKER pre
      (Github.sectionChars link text ++ post) 0 h0
    rwa [Nat.add_zero] at h1
  have hfirst : findSubstrFrom (pre ++ (Github.sectionChars link text ++ post))
      Github.LINK_SECTION_MARKER 0 = some pre.length := by
    apply findSubstrFrom_eq_some hocc1 (Nat.zero_le _)
    intro m _ hmlt
    exact no_occurs_before_boundary hpre hocc1 m hmlt
  have hoccL : OccursAt Github.LINK_SECTION_MARKER
      (pre ++ (Github.sectionChars link text ++ post))
      (pre.length + (34 + text.length + link.length)) := by
    have h0 : OccursAt Github.LINK_SECTION_MARKER (Github.sectionChars link text)
        (34 + text.length + link.length) := (sec_occurs_iff htext hlink _).mpr (Or.inr rfl)
    have h1 : OccursAt Github.LINK_SECTION_MARKER
        (Github.sectionChars link text ++ post) (34 + text.length + link.length) :=
      occursAt_append_left h0
    exact @occursAt_append_right Github.LINK_SECTION_MARKER pre
      (Github.sectionChars link text ++ post) _ h1
  have hsecond : findSubstrFrom (pre ++ (Github.sectionChars link text ++ post))
      Github.LINK_SECTION_MARKER (pre.length + Github.LINK_SECTION_MARKER.length) =
      some (pre.length + (34 + text.length + link.length)) := by
    apply findSubstrFrom_eq_some hoccL (by rw [marker_length]; omega)
    intro m hm1 hm2 hocc
    rw [marker_length] at hm1
    have hocc2 : OccursAt Github.LINK_SECTION_MARKER
        (Github.sectionChars link text ++ post) (m - pre.length) :=
      occursAt_of_append_right hocc (by omega)
    by_cases hfit : (m - pre.length) + 28 ≤ (Github.sectionChars link text).length
    · have hocc3 : OccursAt Github.LINK_SECTION_MARKER (Github.sectionChars link text)
          (m - pre.length) := occursAt_of_append_left hocc2 (by rw [marker_length]; exact hfit)
      exact sec_interior_not_occurs htext hlink (m - pre.length) (by omega) (by omega) hocc3
    · rw [sectionChars_length] at hfit
      omega
  rw [upsert_replace_eq hfirst hsecond (dollar_not_mem_sectionChars hdt hdl)]
  have htake : (pre ++ (Github.sectionChars link text ++ post)).take pre.length = pre :=
    List.take_left _ _
  have hdroparith : pre.length + (34 + text.length + link.length) +
      Github.LINK_SECTION_MARKER.length = (pre ++ Github.sectionChars link text).length := by
    rw [marker_length, List.length_append, sectionChars_length]
    omega
  have hdrop : (pre ++ (Github.sectionChars link text ++ post)).drop
      (pre.length + (34 + text.length + link.length) + Github.LINK_SECTION_MARKER.length) =
      post := by
    rw [hdroparith, ← List.append_assoc]
    exact List.drop_left _ _
  rw [htake, hdrop, List.append_assoc]

/-- C10: a body containing exactly one occurrence of the link-section
marker (an unpaired marker rather than a complete marker-to-marker section)
is returned unchanged by `upsertLinkSection`: no section is appended and
nothing is replaced, for any link URL and label. -/
theorem upsertLinkSection_unpaired_unchanged (body link text : List Char)
    (h : ∃! k, OccursAt Github.LINK_SECTION_MARKER body k) :
    Github.upsertLinkSection body link text = body :=
  upsert_unpaired h

/-- Witness for C10: a body that is an "x" followed by a single marker. -/
theorem upsertLinkSection_unpaired_unchanged_witness :
    Github.upsertLinkSection ('x' :: Github.LINK_SECTION_MARKER) "L".data "T".data =
      'x' :: Github.LINK_SECTION_MARKER := by
  apply upsertLinkSection_unpaired_unchanged
  refine ⟨1, by decide, ?_⟩
  intro k hk
  have hb := hk.add_length_le marker_ne_nil
  rw [marker_length] at hb
  have hlen : ('x' :: Github.LINK_SECTION_MARKER).length = 29 := by decide
  rw [hlen] at hb
  have hk1 : k ≤ 1 := by omega
  interval_cases k
  · exact absurd hk (by decide)
  · rfl

/-- C4 counterexample: with the display label equal to the marker itself,
applying `upsertLinkSection` twice to the empty body yields a different
result than applying it once (the extra marker derails the second
replacement). -/
theorem upsertLinkSection_not_idempotent :
    Github.upsertLinkSection
        (Github.upsertLinkSection [] "L".data Github.LINK_SECTION_MARKER)
        "L".data Github.LINK_SECTION_MARKER ≠
      Github.upsertLinkSection [] "L".data Github.LINK_SECTION_MARKER := by
  decide

/-- C4 (amended): `upsertLinkSection` is idempotent for every body,
provided the label and the link URL contain neither the marker string nor
a dollar character (the escape character of JS replacement patterns). -/
theorem upsertLinkSection_idempotent (body link text : List Char)
    (htext : ∀ k, ¬ OccursAt Github.LINK_SECTION_MARKER text k)
    (hlink : ∀ k, ¬ OccursAt Github.LINK_SECTION_MARKER link k)
    (hdt : '$' ∉ text) (hdl : '$' ∉ link) :
    Github.upsertLinkSection (Github.upsertLinkSection body link text) link text =
      Github.upsertLinkSection body link text := by
  by_cases hc : containsSubstr body Github.LINK_SECTION_MARKER = true
  · have hex : ∃ i, findSubstrFrom body Github.LINK_SECTION_MARKER 0 = some i := by
      unfold containsSubstr at hc
      rcases hfind : findSubstrFrom body Github.LINK_SECTION_MARKER 0 with _ | i
      · rw [hfind] at hc
        simp at hc
      · exact ⟨i, rfl⟩
    obtain ⟨i, hi⟩ := hex
    rcases hj : findSubstrFrom body Github.LINK_SECTION_MARKER
        (i + Github.LINK_SECTION_MARKER.length) with _ | j
    · have hb := @upsert_no_partner body link text i hi hj
      rw [hb]
      exact hb
    · have h1 := upsert_replace_eq hi hj (dollar_not_mem_sectionChars hdt hdl)
      have hpre : ∀ k, ¬ OccursAt Github.LINK_SECTION_MARKER (body.take i) k := by
        intro k hk
        have hk' := occursAt_of_take hk
        have hlen := hk.add_length_le marker_ne_nil
        rw [marker_length] at hlen
        have htl : (body.take i).length ≤ i := by
          rw [List.length_take]
          omega
        obtain ⟨-, -, hmin⟩ := findSubstrFrom_some hi
        exact hmin k (Nat.zero_le _) (by omega) hk'
      have h2 := upsert_of_shape htext hlink hdt hdl (body.take i)
        (body.drop (j + Github.LINK_SECTION_MARKER.length)) hpre
      rw [h1, List.append_assoc]
      exact h2
  · have hcf : containsSubstr body Github.LINK_SECTION_MARKER = false := by
      cases h2 : containsSubstr body Github.LINK_SECTION_MARKER
      · rfl
      · exact absurd h2 hc
    have hb := @upsert_append_eq body link text hcf
    rw [hb]
    have hnoM := no_occurs_of_not_contains hcf
    have harr : body ++ '\n' :: '\n' :: Github.sectionChars link text =
        (body ++ ['\n', '\n']) ++ (Github.sectionChars link text ++ []) := by
      simp
    rw [harr]
    exact upsert_of_shape htext hlink hdt hdl (body ++ ['\n', '\n']) []
      (append_nl2_no_occurs hnoM)

/-- Witness for C4: idempotence on a concrete marker-free body, link and
label. -/
theorem upsertLinkSection_idempotent_witness :
    Github.upsertLinkSection
        (Github.upsertLinkSection "hello".data "L".data "T".data) "L".data "T".data =
      Github.upsertLinkSection "hello".data "L".data "T".data :=
  upsertLinkSection_idempotent "hello".data "L".data "T".data
    (short_no_occurs (by decide)) (short_no_occurs (by decide)) (by decide) (by decide)

/-- C5 counterexample: a body holding a single unpaired marker is returned
unchanged, so the result contains no `marker, [label](link), marker`
section at all. -/
theorem upsertLinkSection_no_section_counterexample :
    Github.upsertLinkSection ('x' :: Github.LINK_SECTION_MARKER) "L".data "T".data =
      'x' :: Github.LINK_SECTION_MARKER ∧
    containsSubstr
        (Github.upsertLinkSection ('x' :: Github.LINK_SECTION_MARKER) "L".data "T".data)
        (Github.sectionChars "L".data "T".data) = false := by
  constructor
  · decide
  · decide

/-- C5 (amended): for a label and link URL containing neither the marker
nor a dollar character, `upsertLinkSection` behaves as follows.  When the
body does not contain the marker, the freshly built section is appended
after a blank line and the result contains exactly two marker occurrences,
which delimit that one section.  When the body contains a complete
marker-to-marker span, the first such non-greedy span (from the first
marker occurrence to the first marker occurrence at or after its end) is
replaced by the freshly built section.  A body whose single marker
occurrence is unpaired is returned unchanged. -/
theorem upsertLinkSection_shape (body link text : List Char)
    (htext : ∀ k, ¬ OccursAt Github.LINK_SECTION_MARKER text k)
    (hlink : ∀ k, ¬ OccursAt Github.LINK_SECTION_MARKER link k)
    (hdt : '$' ∉ text) (hdl : '$' ∉ link) :
    (containsSubstr body Github.LINK_SECTION_MARKER = false →
      Github.upsertLinkSection body link text =
        body ++ '\n' :: '\n' :: Github.sectionChars link text ∧
      ∀ k, OccursAt Github.LINK_SECTION_MARKER (Github.upsertLinkSection body link text) k ↔
        (k = body.length + 2 ∨ k = body.length + 2 + (34 + text.length + link.length))) ∧
    (∀ i j, findSubstrFrom body Github.LINK_SECTION_MARKER 0 = some i →
      findSubstrFrom body Github.LINK_SECTION_MARKER
        (i + Github.LINK_SECTION_MARKER.length) = some j →
      Github.upsertLinkSection body link text =
        body.take i ++ Github.sectionChars link text ++
          body.drop (j + Github.LINK_SECTION_MARKER.length)) ∧
    ((∃! k, OccursAt Github.LINK_SECTION_MARKER body k) →
      Github.upsertLinkSection body link text = body) := by
  refine ⟨?_, ?_, fun h => upsert_unpaired h⟩
  · intro hcf
    have hb := @upsert_append_eq body link text hcf
    refine ⟨hb, ?_⟩
    intro k
    rw [hb]
    have hnoM := no_occurs_of_not_contains hcf
    have harr : body ++ '\n' :: '\n' :: Github.sectionChars link text =
        (body ++ ['\n', '\n']) ++ Github.sectionChars link text := by
      simp
    rw [harr]
    have hpre := append_nl2_no_occurs hnoM
    have hblen : (body ++ ['\n', '\n']).length = body.length + 2 := by
      simp
    have hocc_b : OccursAt Github.LINK_SECTION_MARKER
        ((body ++ ['\n', '\n']) ++ Github.sectionChars link text)
        (body ++ ['\n', '\n']).length := by
      have h0 : OccursAt Github.LINK_SECTION_MARKER (Github.sectionChars link text) 0 :=
        (sec_occurs_iff htext hlink 0).mpr (Or.inl rfl)
      have h1 := @occursAt_append_right Github.LINK_SECTION_MARKER (body ++ ['\n', '\n'])
        (Github.sectionChars link text) 0 h0
      rwa [Nat.add_zero] at h1
    constructor
    · intro hocc
      by_cases hk : k < (body ++ ['\n', '\n']).length
      · exact absurd hocc (no_occurs_before_boundary hpre hocc_b k hk)
      · push_neg at hk
        have h2 : OccursAt Github.LINK_SECTION_MARKER (Github.sectionChars link text)
            (k - (body ++ ['\n', '\n']).length) := occursAt_of_append_right hocc hk
        have h3 := (sec_occurs_iff htext hlink _).mp h2
        rw [hblen] at hk h3
        rcases h3 with h3 | h3
        · left
          omega
        · right
          omega
    · intro hk
      rcases hk with h | h
      · rw [h, ← hblen]
        exact hocc_b
      · rw [h]
        have h0 : OccursAt Github.LINK_SECTION_MARKER (Github.sectionChars link text)
            (34 + text.length + link.length) :=
          (sec_occurs_iff htext hlink _).mpr (Or.inr rfl)
        have h1 := @occursAt_append_right Github.LINK_SECTION_MARKER (body ++ ['\n', '\n'])
          (Github.sectionChars link text) _ h0
        rw [hblen] at h1
        exact h1
  · intro i j hi hj
    exact upsert_replace_eq hi hj (dollar_not_mem_sectionChars hdt hdl)

/-- Witness for C5: appending to a concrete marker-free body. -/
theorem upsertLinkSection_shape_witness :
    Github.upsertLinkSection "hello".data "L".data "T".data =
      "hello".data ++ '\n' :: '\n' :: Github.sectionChars "L".data "T".data :=
  ((upsertLinkSection_shape "hello".data "L".data "T".data (short_no_occurs (by decide))
    (short_no_occurs (by decide)) (by decide) (by decide)).1 (by decide)).1
